import Mathlib

/-!
Shallow embedding of the go-merkle library (package merkle, file main.go).

Byte sequences are modelled as List Nat and the pluggable hash.Hash engine as a
function H : List Nat → List Nat. The Go engine is stateful (Reset/Write/Sum),
but the library resets it before every computation, so each digest computation
is the pure application of H to the written bytes. Go slices of nodes become
lists of digests: after Construct the only observable datum of a Node is its
digest, and the parent/child wiring established by constructLevel is the index
arithmetic parent i has children 2i and 2i+1. A Go runtime panic from an
out-of-range slice index is modelled by the dedicated error value Err.panicOOB
(or by Option.none where noted).
-/

namespace Merkle

/-- Byte sequences and digests, as in the Go code ([]byte). -/
abbrev Digest := List Nat

/-- The pluggable digest engine: hash.Hash used as Reset; Write bs; Sum nil. -/
abbrev HashFn := List Nat → List Nat

/-- Error outcomes of the library. The first four model the errors.New values
returned by Construct, level and ComputeProof; leafNoValue models the hashing
error for a leaf without a digest; panicOOB models a Go runtime panic from an
out-of-range slice index (not a returned error in Go). -/
inductive Err where
  | invalidState
  | emptyInput
  | heightOutOfRange
  | notFound
  | leafNoValue
  | panicOOB
deriving DecidableEq

/-- Digest of parent node i over a child level, per hashing (main.go 63-95) on
the structure wired by constructLevel (main.go 272-289): the parent of children
2i and 2i+1 has digest hash(left ++ right), and hash(left) when child 2i+1 is
absent. For every i below the parent-level size, index 2i is in range, so the
getD default is never used there. -/
def parentDigest (H : HashFn) (children : List Digest) (i : Nat) : Digest :=
  match children[2 * i + 1]? with
  | some r => H (children.getD (2 * i) [] ++ r)
  | none => H (children.getD (2 * i) [])

/-- Embedding of constructLevel (main.go 272-289) fused with the digest fill of
hashing/setHashes (main.go 63-95, 265-270): the parent level has
(len + len % 2) / 2 nodes and each node is represented by its final digest.
The node-level model (GNode, hashing, constructLevelN below) and the theorem
construct_digest_is_hashing_root justify the fusion. -/
def constructLevel (H : HashFn) (children : List Digest) : List Digest :=
  (List.range ((children.length + children.length % 2) / 2)).map
    (parentDigest H children)

/-- PowOf2 (util.go): i != 0 && i & (i-1) == 0. -/
def PowOf2 (i : Nat) : Bool :=
  decide (i ≠ 0) && (i &&& (i - 1) == 0)

/-- The halving loop of Log2 (util.go): j is halved until it reaches 0 and l
counts the completed halvings that left j nonzero. The fuel argument only
bounds the recursion; fuel = j always suffices (j < 2 ^ j), see
log2Loop_eval. -/
def log2Loop : Nat → Nat → Nat → Nat
  | 0, _, l => l
  | fuel + 1, j, l => if j / 2 = 0 then l else log2Loop fuel (j / 2) (l + 1)

/-- Log2 (util.go): floor(log2 i) computed by the halving loop, plus one when i
is not a power of two, so Log2 i = ceil(log2 i) for i at least 1. -/
def Log2 (i : Nat) : Nat :=
  let l := log2Loop i i 0
  if PowOf2 i then l else l + 1

/-- calcTreeHeight (main.go 291-300). -/
def calcTreeHeight (count : Nat) : Nat :=
  if count = 0 then 0
  else if count = 1 then 2
  else Log2 count + 1

/-- The Tree (main.go): an ordered list of levels, index 0 the root level, last
index the leaf level; each node is represented by its digest. The Go Tree also
stores the hash engine; here the engine H is passed to each operation. -/
structure Tree where
  levels : List (List Digest)
deriving DecidableEq

/-- Height (main.go): the number of levels. -/
def Tree.Height (t : Tree) : Nat := t.levels.length

/-- Empty (main.go): height zero. -/
def Tree.Empty (t : Tree) : Bool := t.Height == 0

/-- root (main.go): t.levels[0][0]; none models the runtime panic when the
tree has no levels or the root level is empty. -/
def Tree.root? (t : Tree) : Option Digest :=
  match t.levels with
  | [] => none
  | lvl :: _ => lvl.head?

/-- level (main.go 137-143): decrement height, reject h < 0 or h > Height(),
then index t.levels[h]. The Go bounds check uses a strict greater-than against
the level count, so h = Height() passes the check and the subsequent slice
index panics (modelled by panicOOB). -/
def Tree.level (t : Tree) (height : Int) : Except Err (List Digest) :=
  let h := height - 1
  if h < 0 || h > (t.Height : Int) then Except.error Err.heightOutOfRange
  else
    match t.levels[h.toNat]? with
    | some lvl => Except.ok lvl
    | none => Except.error Err.panicOOB

/-- Proof (main.go 145-148): a branch of encoded sibling entries plus the
working digest h, mutated in place by VerifyProof. -/
structure Proof where
  br : List (List Nat)
  h : Digest
deriving DecidableEq

/-- Level construction loop of Construct (main.go 241-259): builds n parent
levels above the given level, returning the levels root-first. buildUp H n lvl
has n + 1 levels: iterated constructLevel applications down to lvl itself. -/
def buildUp (H : HashFn) : Nat → List Digest → List (List Digest)
  | 0, lvl => [lvl]
  | n + 1, lvl => buildUp H n (constructLevel H lvl) ++ [lvl]

/-- Construct (main.go 234-263): reject a non-empty tree (InvalidState), then
empty input (EmptyInput); otherwise hash the values into the leaf level in
input order, build calcTreeHeight(count) levels bottom-up, fill the internal
digests (setHashes/hashing, fused into constructLevel here) and return the
root digest. The Go method mutates the receiver; here the resulting tree is
returned alongside the digest result, and both error cases return the receiver
unchanged. The leafNoValue fallback mirrors the hashing error path and is
unreachable from these inputs. -/
def Tree.Construct (H : HashFn) (t : Tree) (vals : List (List Nat)) :
    Tree × Except Err Digest :=
  if !t.Empty then (t, Except.error Err.invalidState)
  else if vals.length = 0 then (t, Except.error Err.emptyInput)
  else
    let count := vals.length
    let height := calcTreeHeight count
    let leafLevel := vals.map H
    let t' : Tree := ⟨buildUp H (height - 1) leafLevel⟩
    match t'.root? with
    | some r => (t', Except.ok r)
    | none => (t', Except.error Err.leafNoValue)

/-- The scan of ComputeProof (main.go 167-175): for i, _ = range leaves with a
break on the first digest equal to h. With the Go range loop the assigned
index after a completed scan is len - 1 (not len), and 0 when the level is
empty; scanIdx reproduces exactly that final value of i. -/
def scanIdx (h : Digest) : List Digest → Nat
  | [] => 0
  | d :: rest =>
    if d = h then 0
    else
      match rest with
      | [] => 0
      | _ :: _ => scanIdx h rest + 1

/-- One encoded branch entry of ComputeProof (main.go 176-198): the sibling of
index i is at i xor 1; the entry prepends tag 0 when the sibling index is even
(sibling goes on the left) and tag 1 when odd (sibling goes on the right).
none models the Go runtime panic when i xor 1 is outside the level. -/
def sibEntry (lvl : List Digest) (i : Nat) : Option (List Nat) :=
  match lvl[i ^^^ 1]? with
  | some sib => some ((if (i ^^^ 1) &&& 1 = 0 then 0 else 1) :: sib)
  | none => none

/-- The ascending loop of ComputeProof (main.go 180-198): halve i, decrement
height, fetch the level; stop successfully at a level of size 1 (the root),
otherwise append the sibling entry and continue. At height 0 the Go code calls
level(-1) which fails with the height error; the base case returns that error
directly, which also makes the recursion structural in height. -/
def proofLoop (H : HashFn) (t : Tree) :
    Nat → Nat → List (List Nat) → Except Err (List (List Nat))
  | _, 0, _ => Except.error Err.heightOutOfRange
  | i, height + 1, br =>
    match t.level (height : Int) with
    | Except.error e => Except.error e
    | Except.ok lvl =>
      if lvl.length = 1 then Except.ok br
      else
        match sibEntry lvl (i / 2) with
        | none => Except.error Err.panicOOB
        | some e => proofLoop H t (i / 2) height (br ++ [e])

/-- ComputeProof (main.go 158-201): hash the value, fetch the leaf level, scan
it, return NotFound when the scan index equals the level length, then collect
the leaf sibling entry and the entries of the ascending loop, and package the
branch with the value digest as the working digest. -/
def Tree.ComputeProof (H : HashFn) (t : Tree) (val : List Nat) :
    Except Err Proof :=
  let h := H val
  match t.level (t.Height : Int) with
  | Except.error e => Except.error e
  | Except.ok leaves =>
    let i := scanIdx h leaves
    if i = leaves.length then Except.error Err.notFound
    else
      match sibEntry leaves i with
      | none => Except.error Err.panicOOB
      | some e0 =>
        (proofLoop H t i t.Height [e0]).map (fun br => ⟨br, h⟩)

/-- One iteration of the VerifyProof loop (main.go 204-222): a branch entry
with tag 0 puts its digest on the left of the working digest, tag 1 on the
right, any other tag (and a nil entry, modelled by the empty list) leaves the
working digest alone; the result is then rehashed. -/
def verifyStep (H : HashFn) (cur : Digest) (entry : List Nat) : Digest :=
  match entry with
  | [] => H cur
  | tag :: rest =>
    if tag = 0 then H (rest ++ cur)
    else if tag = 1 then H (cur ++ rest)
    else H cur

/-- VerifyProof (main.go 203-226): fold verifyStep over the branch starting
from the proof's working digest, then compare with the root digest for exact
equality. The Go method mutates p.h in place; the returned pair carries the
boolean result together with the proof as it is left after the call. none
models the root() panic on a tree with no levels. -/
def Tree.VerifyProof (H : HashFn) (t : Tree) (p : Proof) :
    Option (Bool × Proof) :=
  let h1 := p.br.foldl (verifyStep H) p.h
  match t.root? with
  | none => none
  | some r => some (r == h1, ⟨p.br, h1⟩)

/-- The value produced by sibEntry when the sibling index is in range; used to
state what ComputeProof returns on trees where the access cannot go out of
bounds. -/
def sibEntryD (lvl : List Digest) (i : Nat) : List Nat :=
  (if (i ^^^ 1) &&& 1 = 0 then 0 else 1) :: lvl.getD (i ^^^ 1) []

/-- The branch that ComputeProof collects on a tree whose levels are the
iterated constructLevel applications: one sibling entry per level, halving the
index at each step; m is the number of levels strictly below the root. -/
def chainBranch (H : HashFn) : Nat → List Digest → Nat → List (List Nat)
  | 0, _, _ => []
  | m + 1, c, i => sibEntryD c i :: chainBranch H m (constructLevel H c) (i / 2)

/-- Reference definition following the spec: one pairing step over a level,
left to right; a paired parent hashes left ++ right, a lone tail child is
wrapped as hash(left). Stated from the spec wording, to be compared with the
source-derived constructLevel. -/
def specParent (H : HashFn) : List Digest → List Digest
  | [] => []
  | [a] => [H a]
  | a :: b :: rest => H (a ++ b) :: specParent H rest

/-- Length of one reference pairing step. -/
theorem specParent_length (H : HashFn) :
    ∀ ds : List Digest, (specParent H ds).length = (ds.length + 1) / 2
  | [] => by simp [specParent]
  | [a] => by simp [specParent]
  | a :: b :: rest => by
    simp [specParent, specParent_length H rest]
    omega

/-- Reference Merkle root of a list of leaf digests, following the spec: pair
up repeatedly until a single digest remains. -/
def specRootFrom (H : HashFn) (ds : List Digest) : Digest :=
  match ds with
  | [] => []
  | [d] => d
  | a :: b :: rest => specRootFrom H (specParent H (a :: b :: rest))
termination_by ds.length
decreasing_by
  simp [specParent_length]
  omega

/-- Reference Merkle root of a value list, following the spec: leaf i holds
hash(values[i]) in input order; with exactly one value the root level wraps
the single leaf, so the root digest is hash(leaf digest). -/
def specRoot (H : HashFn) (vals : List (List Nat)) : Digest :=
  match vals.map H with
  | [d] => H d
  | ds => specRootFrom H ds

/-- Branch entry direction as the spec words it: LEFT means the recorded
sibling goes on the left of the working digest, RIGHT on the right. -/
inductive Direction where
  | LEFT
  | RIGHT
deriving DecidableEq

/-- Verification step as the spec words it. -/
def specVerifyStep (H : HashFn) (cur : Digest) (e : Direction × Digest) :
    Digest :=
  match e.1 with
  | Direction.LEFT => H (e.2 ++ cur)
  | Direction.RIGHT => H (cur ++ e.2)

/-- Encoding of a spec branch entry as the byte-level entry the code stores:
tag byte 0 for LEFT, 1 for RIGHT, followed by the sibling digest. -/
def encodeEntry (e : Direction × Digest) : List Nat :=
  (match e.1 with
   | Direction.LEFT => 0
   | Direction.RIGHT => 1) :: e.2

/-- Verification as the spec words it: fold the branch entries over the
starting working digest and compare the result with the root digest for exact
equality. -/
def specVerify (H : HashFn) (root : Digest) (start : Digest)
    (entries : List (Direction × Digest)) : Bool :=
  root == entries.foldl (specVerifyStep H) start

/-- Toy digest engine for concrete instances: prepend a tag byte. It is
injective and length-increasing, hence collision-free. -/
def consHash (bs : List Nat) : List Nat := 7 :: bs

/-- Node (main.go 10-13): an optional digest and up to two children. The Go
parent back-reference is a non-owning navigational aid; in the embedding the
tree shape itself carries the child links and the upward walk of hashing is
expressed as recursion. -/
inductive GNode where
  | mk (h : Option (List Nat)) (left : Option GNode) (right : Option GNode)

/-- IsLeaf (main.go 15-17): both children absent. -/
def GNode.IsLeaf : GNode → Bool
  | GNode.mk _ left right => left.isNone && right.isNone

/-- hashing (main.go 63-95), the lazy digest fill, written as the recursion it
computes: the Go procedure walks down into children whose digest is still nil
and back up through parent pointers, setting each digest exactly once on the
way up; on any node it therefore produces the digest given by this recursion.
A node with a digest returns it; a leaf without one is the Go error (Leaf node
does not have value); a digestless node with no left but a right child would
dereference the nil left pointer in Go (panic); otherwise the digest is
hash(left ++ right) with both children, hash(left) with only a left child.
none covers the error and panic outcomes. -/
def hashing (H : HashFn) : GNode → Option (List Nat)
  | GNode.mk (some h) _ _ => some h
  | GNode.mk none none none => none
  | GNode.mk none none (some _) => none
  | GNode.mk none (some l) none => (hashing H l).map H
  | GNode.mk none (some l) (some rn) =>
    match hashing H l, hashing H rn with
    | some hl, some hr => some (H (hl ++ hr))
    | _, _ => none

/-- Leaf node built by Construct (main.go 248-254): digest set to the value's
hash, no children. -/
def leafNode (H : HashFn) (val : List Nat) : GNode :=
  GNode.mk (some (H val)) none none

/-- Parent node i of constructLevel (main.go 272-289) at the node level: no
digest yet, left child children[2i] (in range for every i below the parent
count), right child children[2i+1] when in range. -/
def parentNode (children : List GNode) (i : Nat) : GNode :=
  GNode.mk none children[2 * i]? children[2 * i + 1]?

/-- constructLevel (main.go 272-289) at the node level: the parent level has
(len + len % 2) / 2 nodes, wired by index. -/
def constructLevelN (children : List GNode) : List GNode :=
  (List.range ((children.length + children.length % 2) / 2)).map
    (parentNode children)

/-!
Arithmetic layer: the xor-sibling index, the PowOf2 test and the Log2 loop.
-/

theorem testBit_one_eq (m : Nat) : (1 : Nat).testBit m = decide (0 = m) := by
  have h : (1 : Nat) = 2 ^ 0 := rfl
  rw [h, Nat.testBit_two_pow]

theorem xor_one_of_even {i : Nat} (h : i % 2 = 0) : i ^^^ 1 = i + 1 := by
  apply Nat.eq_of_testBit_eq
  intro j
  rw [Nat.testBit_xor, testBit_one_eq]
  cases j with
  | zero =>
    simp only [decide_eq_true_eq, Nat.testBit_to_div_mod, pow_zero, Nat.div_one]
    have h1 : decide (i % 2 = 1) = false := by simp; omega
    have h2 : decide ((i + 1) % 2 = 1) = true := by simp; omega
    rw [h1, h2]
    rfl
  | succ j =>
    have h1 : decide (0 = j + 1) = false := by simp
    rw [h1, Bool.xor_false, Nat.testBit_succ, Nat.testBit_succ]
    have h2 : i / 2 = (i + 1) / 2 := by omega
    rw [h2]

theorem xor_one_of_odd {i : Nat} (h : i % 2 = 1) : i ^^^ 1 = i - 1 := by
  apply Nat.eq_of_testBit_eq
  intro j
  rw [Nat.testBit_xor, testBit_one_eq]
  cases j with
  | zero =>
    simp only [decide_eq_true_eq, Nat.testBit_to_div_mod, pow_zero, Nat.div_one]
    have h1 : decide (i % 2 = 1) = true := by simp; omega
    have h2 : decide ((i - 1) % 2 = 1) = false := by simp; omega
    rw [h1, h2]
    rfl
  | succ j =>
    have h1 : decide (0 = j + 1) = false := by simp
    rw [h1, Bool.xor_false, Nat.testBit_succ, Nat.testBit_succ]
    have h2 : i / 2 = (i - 1) / 2 := by omega
    rw [h2]

theorem xor_one_lt {i e : Nat} (he : 1 ≤ e) (hi : i < 2 ^ e) : i ^^^ 1 < 2 ^ e := by
  have hev : 2 ^ e % 2 = 0 := by
    have h2 : (2 : Nat) ^ e = 2 ^ (e - 1) * 2 := by
      rw [← pow_succ]
      congr 1
      omega
    omega
  rcases Nat.even_or_odd i with hp | hp
  · have h0 : i % 2 = 0 := Nat.even_iff.mp hp
    rw [xor_one_of_even h0]
    omega
  · have h0 : i % 2 = 1 := Nat.odd_iff.mp hp
    rw [xor_one_of_odd h0]
    omega

theorem powOf2_two_pow (k : Nat) : PowOf2 (2 ^ k) = true := by
  have h0 : (2 : Nat) ^ k ≠ 0 := by positivity
  have hand : 2 ^ k &&& (2 ^ k - 1) = 0 := by
    apply Nat.eq_of_testBit_eq
    intro i
    rw [Nat.testBit_land, Nat.testBit_two_pow, Nat.testBit_two_pow_sub_one,
      Nat.zero_testBit]
    by_cases hik : k = i
    · subst hik
      simp
    · simp [hik]
  simp [PowOf2, h0, hand]

theorem log2_zero_eq : Nat.log2 0 = 0 := by
  rw [Nat.log2_eq_log_two, Nat.log_zero_right]

theorem log2_one_eq : Nat.log2 1 = 0 := by
  rw [Nat.log2_eq_log_two, Nat.log_one_right]

theorem testBit_of_sandwich (k n : Nat) (h1 : 2 ^ k ≤ n) (h2 : n < 2 ^ (k + 1)) :
    n.testBit k = true := by
  rw [Nat.testBit_to_div_mod]
  have hpow : (2 : Nat) ^ (k + 1) = 2 ^ k * 2 := by rw [pow_succ]
  have hdiv : n / 2 ^ k = 1 := by
    apply Nat.div_eq_of_lt_le
    · omega
    · omega
  rw [hdiv]
  simp



theorem powOf2_eq {n : Nat} (h : PowOf2 n = true) : n = 2 ^ Nat.log2 n := by
  simp only [PowOf2, Bool.and_eq_true, decide_eq_true_eq, beq_iff_eq] at h
  obtain ⟨hn0, hand⟩ := h
  by_contra hne
  have hle : 2 ^ Nat.log2 n ≤ n := Nat.log2_self_le hn0
  have hlt : n < 2 ^ (Nat.log2 n + 1) := Nat.lt_log2_self
  have hpow : (2 : Nat) ^ (Nat.log2 n + 1) = 2 ^ Nat.log2 n * 2 := by
    rw [pow_succ]
  have ht1 : n.testBit (Nat.log2 n) = true :=
    testBit_of_sandwich (Nat.log2 n) n hle (by omega)
  have ht2 : (n - 1).testBit (Nat.log2 n) = true :=
    testBit_of_sandwich (Nat.log2 n) (n - 1) (by omega) (by omega)
  have hbit := congrArg (fun x => Nat.testBit x (Nat.log2 n)) hand
  simp only [Nat.testBit_land, Nat.zero_testBit, ht1, ht2] at hbit
  exact Bool.noConfusion hbit

theorem log2Loop_eval :
    ∀ (fuel j l : Nat), j < 2 ^ fuel → log2Loop fuel j l = l + Nat.log2 j := by
  intro fuel
  induction fuel with
  | zero =>
    intro j l hj
    interval_cases j
    simp [log2Loop]
  | succ fuel ih =>
    intro j l hj
    by_cases hj2 : j / 2 = 0
    · have : j = 0 ∨ j = 1 := by omega
      rcases this with rfl | rfl <;>
        simp [log2Loop, hj2, log2_zero_eq, log2_one_eq]
    · have hge : 2 ≤ j := by omega
      have hpow : (2 : Nat) ^ (fuel + 1) = 2 ^ fuel * 2 := by rw [pow_succ]
      have hrec := ih (j / 2) (l + 1) (by omega)
      have hlog : Nat.log2 j = Nat.log2 (j / 2) + 1 := by
        rw [Nat.log2_eq_log_two, Nat.log2_eq_log_two, Nat.log_div_base]
        have hpos : 0 < Nat.log 2 j := Nat.log_pos (by norm_num) hge
        omega
      simp only [log2Loop, hj2, if_false]
      omega

theorem log2Loop_log2 (i : Nat) : log2Loop i i 0 = Nat.log2 i := by
  have h := log2Loop_eval i i 0 (Nat.lt_two_pow i)
  omega

theorem Log2_def_log2 (i : Nat) :
    Log2 i = if PowOf2 i then Nat.log2 i else Nat.log2 i + 1 := by
  simp only [Log2, log2Loop_log2]

theorem Log2_eq_clog {n : Nat} (h : 1 ≤ n) : Log2 n = Nat.clog 2 n := by
  rcases Nat.lt_or_ge n 2 with h2 | h2
  · have h1 : n = 1 := by omega
    subst h1
    have hp : PowOf2 1 = true := by decide
    rw [Log2_def_log2, if_pos hp, log2_one_eq, Nat.clog_one_right]
  · have hub : n ≤ 2 ^ Log2 n := by
      rw [Log2_def_log2]
      by_cases hp : PowOf2 n
      · rw [if_pos hp]
        exact le_of_eq (powOf2_eq hp)
      · rw [if_neg hp]
        exact le_of_lt Nat.lt_log2_self
    have hlb : 2 ^ (Log2 n - 1) < n := by
      rw [Log2_def_log2]
      by_cases hp : PowOf2 n
      · rw [if_pos hp]
        have heq : n = 2 ^ Nat.log2 n := powOf2_eq hp
        have hpos : 1 ≤ Nat.log2 n := by
          by_contra hc
          have h0 : Nat.log2 n = 0 := by omega
          rw [h0] at heq
          omega
        calc 2 ^ (Nat.log2 n - 1) < 2 ^ Nat.log2 n :=
              Nat.pow_lt_pow_right (by norm_num) (by omega)
        _ = n := heq.symm
      · rw [if_neg hp]
        simp only [Nat.add_sub_cancel]
        have hle : 2 ^ Nat.log2 n ≤ n := Nat.log2_self_le (by omega)
        rcases Nat.lt_or_ge (2 ^ Nat.log2 n) n with hlt | hge
        · exact hlt
        · exfalso
          have heq : n = 2 ^ Nat.log2 n := by omega
          apply hp
          rw [heq]
          exact powOf2_two_pow (Nat.log2 n)
    have hc1 : Nat.clog 2 n ≤ Log2 n := (Nat.le_pow_iff_clog_le (by norm_num)).mp hub
    have hc2 : Log2 n ≤ Nat.clog 2 n := by
      by_contra hc
      have hle : Nat.clog 2 n ≤ Log2 n - 1 := by omega
      have hp1 : n ≤ 2 ^ Nat.clog 2 n := Nat.le_pow_clog (by norm_num) n
      have hp2 : (2 : Nat) ^ Nat.clog 2 n ≤ 2 ^ (Log2 n - 1) :=
        Nat.pow_le_pow_right (by norm_num) hle
      omega
    omega

theorem Log2_two_pow (k : Nat) : Log2 (2 ^ k) = k := by
  rw [Log2_def_log2, if_pos (powOf2_two_pow k), Nat.log2_two_pow]

theorem Log2_halfCeil {n : Nat} (h : 2 ≤ n) : Log2 n = Log2 ((n + 1) / 2) + 1 := by
  have h1 : 1 ≤ (n + 1) / 2 := by omega
  rw [Log2_eq_clog (by omega), Log2_eq_clog h1, Nat.clog_of_two_le (by norm_num) h]
  have h2 : n + 2 - 1 = n + 1 := by omega
  rw [h2]

theorem calcTreeHeight_two_pow {k : Nat} (hk : 1 ≤ k) :
    calcTreeHeight (2 ^ k) = k + 1 := by
  have h2 : 2 ≤ 2 ^ k := by
    calc (2:Nat) = 2 ^ 1 := by norm_num
    _ ≤ 2 ^ k := Nat.pow_le_pow_right (by norm_num) hk
  rw [calcTreeHeight, if_neg (by omega), if_neg (by omega), Log2_two_pow]

/-!
List layer: lengths and indexed elements of constructLevel, buildUp and the scan.
-/

theorem constructLevel_length (H : HashFn) (c : List Digest) :
    (constructLevel H c).length = (c.length + c.length % 2) / 2 := by
  simp [constructLevel]

theorem constructLevel_getElem (H : HashFn) (c : List Digest) (i : Nat)
    (h : i < (c.length + c.length % 2) / 2) :
    (constructLevel H c)[i]? = some (parentDigest H c i) := by
  simp [constructLevel, List.getElem?_map, List.getElem?_range h]

theorem constructLevel_ne_nil (H : HashFn) {c : List Digest} (h : c ≠ []) :
    constructLevel H c ≠ [] := by
  have h1 : 0 < c.length := List.length_pos.mpr h
  have h2 : 0 < (constructLevel H c).length := by
    rw [constructLevel_length]
    omega
  exact List.length_pos.mp h2

theorem parentDigest_cons_cons (H : HashFn) (a b : Digest) (rest : List Digest)
    (i : Nat) : parentDigest H (a :: b :: rest) (i + 1) = parentDigest H rest i := by
  have h1 : 2 * (i + 1) + 1 = (2 * i + 1) + 1 + 1 := by ring
  have h2 : 2 * (i + 1) = (2 * i) + 1 + 1 := by ring
  rw [parentDigest, parentDigest, h1, h2]
  rw [List.getElem?_cons_succ, List.getElem?_cons_succ]
  rw [List.getD_cons_succ, List.getD_cons_succ]

theorem constructLevel_eq_specParent (H : HashFn) :
    ∀ c : List Digest, constructLevel H c = specParent H c
  | [] => by simp [constructLevel, specParent]
  | [a] => by
    simp [constructLevel, specParent, parentDigest, List.range_succ]
  | a :: b :: rest => by
    have ih := constructLevel_eq_specParent H rest
    have hlen : ((a :: b :: rest).length + (a :: b :: rest).length % 2) / 2 =
        (rest.length + rest.length % 2) / 2 + 1 := by
      simp
      omega
    rw [constructLevel, hlen, List.range_succ_eq_map]
    rw [List.map_cons, List.map_map]
    have hhead : parentDigest H (a :: b :: rest) 0 = H (a ++ b) := by
      simp [parentDigest]
    have htail :
        (List.range ((rest.length + rest.length % 2) / 2)).map
            (parentDigest H (a :: b :: rest) ∘ Nat.succ) =
          (List.range ((rest.length + rest.length % 2) / 2)).map
            (parentDigest H rest) := by
      apply List.map_congr_left
      intro x _
      exact parentDigest_cons_cons H a b rest x
    rw [hhead, htail, ← constructLevel, ih, specParent]

theorem iterCL_length (H : HashFn) :
    ∀ (j m : Nat) (L : List Digest), L.length = 2 ^ (m + j) →
      ((constructLevel H)^[j] L).length = 2 ^ m := by
  intro j
  induction j with
  | zero =>
    intro m L hL
    simpa using hL
  | succ j ih =>
    intro m L hL
    rw [Function.iterate_succ_apply]
    apply ih
    rw [constructLevel_length]
    have hpow : (2 : Nat) ^ (m + (j + 1)) = 2 ^ (m + j) * 2 := by ring
    omega

theorem iterCL_ne_nil (H : HashFn) :
    ∀ (j : Nat) {L : List Digest}, L ≠ [] → (constructLevel H)^[j] L ≠ [] := by
  intro j
  induction j with
  | zero => intro L h; simpa using h
  | succ j ih =>
    intro L h
    rw [Function.iterate_succ_apply]
    exact ih (constructLevel_ne_nil H h)

theorem buildUp_length (H : HashFn) :
    ∀ (n : Nat) (lvl : List Digest), (buildUp H n lvl).length = n + 1 := by
  intro n
  induction n with
  | zero => intro lvl; simp [buildUp]
  | succ n ih => intro lvl; simp [buildUp, ih]

theorem buildUp_getElem (H : HashFn) :
    ∀ (n : Nat) (lvl : List Digest) (idx : Nat), idx ≤ n →
      (buildUp H n lvl)[idx]? = some ((constructLevel H)^[n - idx] lvl) := by
  intro n
  induction n with
  | zero =>
    intro lvl idx hidx
    have h0 : idx = 0 := by omega
    subst h0
    simp [buildUp]
  | succ n ih =>
    intro lvl idx hidx
    rw [buildUp, List.getElem?_append]
    rcases Nat.lt_or_ge idx (n + 1) with hlt | hge
    · rw [if_pos (by rw [buildUp_length]; omega)]
      rw [ih (constructLevel H lvl) idx (by omega)]
      rw [← Function.iterate_succ_apply]
      congr 2
      omega
    · have hidx1 : idx = n + 1 := by omega
      subst hidx1
      rw [if_neg (by rw [buildUp_length]; omega), buildUp_length]
      simp

theorem scanIdx_cons_cons (h d e : Digest) (rest : List Digest) :
    scanIdx h (d :: e :: rest) = if d = h then 0 else scanIdx h (e :: rest) + 1 :=
  rfl

theorem scanIdx_of_mem (h : Digest) :
    ∀ l : List Digest, h ∈ l → l[scanIdx h l]? = some h ∧ scanIdx h l < l.length := by
  intro l
  induction l with
  | nil => intro hm; cases hm
  | cons d rest ih =>
    intro hm
    by_cases hd : d = h
    · subst hd
      constructor
      · simp [scanIdx]
      · simp [scanIdx]
    · have hm' : h ∈ rest := by
        rcases List.mem_cons.mp hm with h1 | h1
        · exact absurd h1.symm hd
        · exact h1
      have hne : rest ≠ [] := List.ne_nil_of_mem hm'
      obtain ⟨e, rest', rfl⟩ := List.exists_cons_of_ne_nil hne
      obtain ⟨ih1, ih2⟩ := ih hm'
      constructor
      · rw [scanIdx_cons_cons, if_neg hd, List.getElem?_cons_succ]
        exact ih1
      · rw [List.length_cons, scanIdx_cons_cons, if_neg hd]
        omega

theorem sibEntry_eq_some {lvl : List Digest} {i : Nat} (h : i ^^^ 1 < lvl.length) :
    sibEntry lvl i = some (sibEntryD lvl i) := by
  rw [sibEntry, sibEntryD, List.getElem?_eq_getElem h,
    List.getD_eq_getElem lvl [] h]

theorem head?_of_ne_nil {α : Type _} {l : List α} (d : α) (h : l ≠ []) :
    l.head? = some (l.headD d) := by
  cases l with
  | nil => exact absurd rfl h
  | cons a rest => rfl

/-!
Core layer: how one verification step recomputes the parent digest, and the
fold of a whole branch up the iterated levels.
-/

theorem getD_of_getElem {cs : List Digest} {i : Nat} {h : Digest}
    (hc : cs[i]? = some h) : cs.getD i [] = h := by
  rw [List.getD_eq_getElem?_getD, hc]
  rfl

theorem lt_of_getElem_some {α : Type _} {cs : List α} {i : Nat} {h : α}
    (hc : cs[i]? = some h) : i < cs.length := by
  by_contra hge
  rw [List.getElem?_eq_none (by omega)] at hc
  cases hc

theorem constructLevel_parent_step (H : HashFn) {cs : List Digest} {m i : Nat}
    {h : Digest} (hlen : cs.length = 2 ^ (m + 1)) (hi : i < cs.length)
    (hc : cs[i]? = some h) :
    (constructLevel H cs)[i / 2]? = some (verifyStep H h (sibEntryD cs i)) := by
  have hpow : (2 : Nat) ^ (m + 1) = 2 ^ m * 2 := by ring
  have hev : cs.length % 2 = 0 := by omega
  have hsize : i / 2 < (cs.length + cs.length % 2) / 2 := by omega
  rw [constructLevel_getElem H cs (i / 2) hsize]
  rcases Nat.even_or_odd i with hp | hp
  · -- i even: sibling at i + 1, tag 1, parent hashes h ++ sibling
    have h0 : i % 2 = 0 := Nat.even_iff.mp hp
    have hx : i ^^^ 1 = i + 1 := xor_one_of_even h0
    have hi1 : i + 1 < cs.length := by omega
    have h2i : 2 * (i / 2) = i := by omega
    have h2i1 : 2 * (i / 2) + 1 = i + 1 := by omega
    have htag : (i + 1) &&& 1 = 1 := by
      rw [Nat.and_one_is_mod]
      omega
    have hgd : cs.getD i [] = h := getD_of_getElem hc
    have hsib : sibEntryD cs i = 1 :: cs.getD (i + 1) [] := by
      rw [sibEntryD, hx, htag]
      norm_num
    have hpar : parentDigest H cs (i / 2) = H (h ++ cs.getD (i + 1) []) := by
      rw [parentDigest, h2i1, h2i, List.getElem?_eq_getElem hi1, hgd,
        List.getD_eq_getElem cs [] hi1]
    rw [hpar, hsib]
    rfl
  · -- i odd: sibling at i - 1, tag 0, parent hashes sibling ++ h
    have h0 : i % 2 = 1 := Nat.odd_iff.mp hp
    have hx : i ^^^ 1 = i - 1 := xor_one_of_odd h0
    have h2i : 2 * (i / 2) = i - 1 := by omega
    have h2i1 : 2 * (i / 2) + 1 = i := by omega
    have htag : (i - 1) &&& 1 = 0 := by
      rw [Nat.and_one_is_mod]
      omega
    have hsib : sibEntryD cs i = 0 :: cs.getD (i - 1) [] := by
      rw [sibEntryD, hx, htag]
      norm_num
    have hpar : parentDigest H cs (i / 2) = H (cs.getD (i - 1) [] ++ h) := by
      rw [parentDigest, h2i1, h2i, hc]
    rw [hpar, hsib]
    rfl

theorem fold_chainBranch (H : HashFn) :
    ∀ (m : Nat) (cs : List Digest) (i : Nat) (h : Digest),
      cs.length = 2 ^ m → i < cs.length → cs[i]? = some h →
      (chainBranch H m cs i).foldl (verifyStep H) h =
        ((constructLevel H)^[m] cs).headD [] := by
  intro m
  induction m with
  | zero =>
    intro cs i h hlen hi hc
    have h0 : i = 0 := by omega
    subst h0
    obtain ⟨a, rfl⟩ := List.length_eq_one.mp hlen
    simp only [List.getElem?_cons_zero, Option.some.injEq] at hc
    subst hc
    simp [chainBranch]
  | succ m ih =>
    intro cs i h hlen hi hc
    rw [chainBranch, List.foldl_cons]
    have hstep := constructLevel_parent_step H hlen hi hc
    have hlen' : (constructLevel H cs).length = 2 ^ m := by
      have hpow : (2 : Nat) ^ (m + 1) = 2 ^ m * 2 := by ring
      rw [constructLevel_length]
      omega
    have hi' : i / 2 < (constructLevel H cs).length := lt_of_getElem_some hstep
    rw [ih (constructLevel H cs) (i / 2) _ hlen' hi' hstep]
    rw [← Function.iterate_succ_apply]

theorem level_of_getElem {t : Tree} {n : Nat} {lvl : List Digest}
    (hn : 1 ≤ n) (hsome : t.levels[n - 1]? = some lvl) :
    t.level (n : Int) = Except.ok lvl := by
  have hlt : n - 1 < t.levels.length := lt_of_getElem_some hsome
  have htoNat : ((n : Int) - 1).toNat = n - 1 := by omega
  simp only [Tree.level]
  split
  · rename_i hcond
    exfalso
    simp only [Bool.or_eq_true, decide_eq_true_eq, Tree.Height] at hcond
    omega
  · rw [htoNat, hsome]

theorem root?_buildUp (H : HashFn) (n : Nat) {lvl : List Digest} (hne : lvl ≠ []) :
    (Tree.mk (buildUp H n lvl)).root? =
      some (((constructLevel H)^[n] lvl).headD []) := by
  have h0 := buildUp_getElem H n lvl 0 (Nat.zero_le n)
  cases hbu : buildUp H n lvl with
  | nil =>
    have := buildUp_length H n lvl
    rw [hbu] at this
    simp at this
  | cons a rest =>
    rw [hbu] at h0
    simp only [List.getElem?_cons_zero, Option.some.injEq, Nat.sub_zero] at h0
    rw [Tree.root?]
    subst h0
    exact head?_of_ne_nil [] (iterCL_ne_nil H n hne)

theorem proofLoop_pow2 (H : HashFn) {k : Nat} {L0 : List Digest}
    (hL : L0.length = 2 ^ k) :
    ∀ (m : Nat), m + 1 ≤ k → ∀ (i : Nat) (br : List (List Nat)), i < 2 ^ (m + 1) →
      proofLoop H ⟨buildUp H k L0⟩ i (m + 2) br =
        Except.ok (br ++ chainBranch H m ((constructLevel H)^[k - m] L0) (i / 2)) := by
  intro m
  induction m with
  | zero =>
    intro hm i br hi
    have hget : (Tree.mk (buildUp H k L0)).levels[(1 : Nat) - 1]? =
        some ((constructLevel H)^[k] L0) := by
      have h0 := buildUp_getElem H k L0 0 (Nat.zero_le k)
      simpa using h0
    have hlv : (Tree.mk (buildUp H k L0)).level ((1 : Nat) : Int) =
        Except.ok ((constructLevel H)^[k] L0) :=
      level_of_getElem (by omega) hget
    have hlen1 : ((constructLevel H)^[k] L0).length = 1 := by
      have h1 := iterCL_length H k 0 L0 (by simpa using hL)
      simpa using h1
    show proofLoop H ⟨buildUp H k L0⟩ i (1 + 1) br = _
    rw [proofLoop]
    rw [show ((1 : Nat) : Int) = ((1 : Nat) : Int) from rfl] at hlv
    simp only [Nat.cast_one] at hlv ⊢
    simp only [hlv]
    rw [if_pos hlen1, chainBranch, List.append_nil]
  | succ m ih =>
    intro hm i br hi
    have hget : (Tree.mk (buildUp H k L0)).levels[(m + 2 : Nat) - 1]? =
        some ((constructLevel H)^[k - m - 1] L0) := by
      have h0 := buildUp_getElem H k L0 (m + 1) (by omega)
      have harith : k - (m + 1) = k - m - 1 := by omega
      rw [harith] at h0
      simpa using h0
    have hlv : (Tree.mk (buildUp H k L0)).level ((m + 2 : Nat) : Int) =
        Except.ok ((constructLevel H)^[k - m - 1] L0) :=
      level_of_getElem (by omega) hget
    have hlvlen : ((constructLevel H)^[k - m - 1] L0).length = 2 ^ (m + 1) := by
      apply iterCL_length
      rw [hL]
      congr 1
      omega
    have hlvne : ¬((constructLevel H)^[k - m - 1] L0).length = 1 := by
      rw [hlvlen]
      have hpos : 0 < (2 : Nat) ^ m := Nat.pos_pow_of_pos m (by norm_num)
      have hpow : (2 : Nat) ^ (m + 1) = 2 ^ m * 2 := by ring
      omega
    have hi2 : i / 2 < 2 ^ (m + 1) := by
      have hpow : (2 : Nat) ^ (m + 2) = 2 ^ (m + 1) * 2 := by ring
      omega
    have hxlt : (i / 2) ^^^ 1 < ((constructLevel H)^[k - m - 1] L0).length := by
      rw [hlvlen]
      exact xor_one_lt (by omega) hi2
    have hit : constructLevel H ((constructLevel H)^[k - m - 1] L0) =
        (constructLevel H)^[k - m] L0 := by
      have h1 := (Function.iterate_succ_apply' (constructLevel H) (k - m - 1) L0).symm
      rw [Nat.succ_eq_add_one] at h1
      have harith : (k - m - 1) + 1 = k - m := by omega
      rw [harith] at h1
      exact h1
    show proofLoop H ⟨buildUp H k L0⟩ i ((m + 2) + 1) br = _
    rw [proofLoop]
    simp only [hlv]
    rw [if_neg hlvne]
    simp only [sibEntry_eq_some hxlt]
    rw [ih (by omega) (i / 2) _ hi2]
    have harith2 : k - (m + 1) = k - m - 1 := by omega
    rw [chainBranch, harith2, hit, List.append_assoc]
    rfl

theorem computeProof_pow2 (H : HashFn) {k : Nat} {L0 : List Digest} {v : List Nat}
    (hk : 1 ≤ k) (hL : L0.length = 2 ^ k) (hmem : H v ∈ L0) :
    (Tree.mk (buildUp H k L0)).ComputeProof H v =
      Except.ok ⟨chainBranch H k L0 (scanIdx (H v) L0), H v⟩ := by
  obtain ⟨k', rfl⟩ : ∃ k', k = k' + 1 := ⟨k - 1, by omega⟩
  obtain ⟨hget, hlt⟩ := scanIdx_of_mem (H v) L0 hmem
  have hHeight : (Tree.mk (buildUp H (k' + 1) L0)).Height = k' + 2 := by
    rw [Tree.Height]
    rw [buildUp_length]
  have hleaves : (Tree.mk (buildUp H (k' + 1) L0)).levels[(k' + 2 : Nat) - 1]? =
      some L0 := by
    have h0 := buildUp_getElem H (k' + 1) L0 (k' + 1) (le_refl (k' + 1))
    simpa using h0
  have hlv : (Tree.mk (buildUp H (k' + 1) L0)).level ((k' + 2 : Nat) : Int) =
      Except.ok L0 := level_of_getElem (by omega) hleaves
  have hsib : sibEntry L0 (scanIdx (H v) L0) =
      some (sibEntryD L0 (scanIdx (H v) L0)) := by
    apply sibEntry_eq_some
    rw [hL]
    exact xor_one_lt (by omega) (by omega)
  have hloop := proofLoop_pow2 H hL k' (le_refl (k' + 1))
    (scanIdx (H v) L0) [sibEntryD L0 (scanIdx (H v) L0)] (by omega)
  rw [Tree.ComputeProof, hHeight]
  simp only [hlv]
  rw [if_neg (by omega)]
  simp only [hsib]
  rw [hloop]
  have harith : k' + 1 - k' = 1 := by omega
  rw [harith]
  rw [Except.map]
  rw [chainBranch]
  have hit1 : (constructLevel H)^[1] L0 = constructLevel H L0 := by
    rw [Function.iterate_one]
  rw [hit1]
  rfl

theorem roundtrip_buildUp (H : HashFn) {k : Nat} {L0 : List Digest} {v : List Nat}
    (hk : 1 ≤ k) (hL : L0.length = 2 ^ k) (hmem : H v ∈ L0) :
    ∃ p p' : Proof,
      (Tree.mk (buildUp H k L0)).ComputeProof H v = Except.ok p ∧
      (Tree.mk (buildUp H k L0)).VerifyProof H p = some (true, p') := by
  obtain ⟨hget, hlt⟩ := scanIdx_of_mem (H v) L0 hmem
  have hne : L0 ≠ [] := by
    intro hnil
    rw [hnil] at hmem
    cases hmem
  have hroot := root?_buildUp H k hne
  have hfold := fold_chainBranch H k L0 (scanIdx (H v) L0) (H v)
    hL (by omega) hget
  refine ⟨⟨chainBranch H k L0 (scanIdx (H v) L0), H v⟩,
    ⟨chainBranch H k L0 (scanIdx (H v) L0), ((constructLevel H)^[k] L0).headD []⟩,
    computeProof_pow2 H hk hL hmem, ?_⟩
  simp only [Tree.VerifyProof, hroot, hfold, beq_self_eq_true]

theorem empty_tree_Empty : (Tree.mk []).Empty = true := rfl

theorem construct_ok (H : HashFn) {vals : List (List Nat)}
    (h1 : 1 ≤ vals.length) :
    Tree.Construct H (Tree.mk []) vals =
      (Tree.mk (buildUp H (calcTreeHeight vals.length - 1) (vals.map H)),
       Except.ok (((constructLevel H)^[calcTreeHeight vals.length - 1]
         (vals.map H)).headD [])) := by
  have hne : vals.map H ≠ [] := by
    intro hnil
    have h0 : (vals.map H).length = 0 := by rw [hnil]; rfl
    rw [List.length_map] at h0
    omega
  have hroot := root?_buildUp H (calcTreeHeight vals.length - 1) hne
  have hc1 : ¬((!(Tree.mk []).Empty) = true) := by
    rw [empty_tree_Empty]
    simp
  have hc2 : ¬(vals.length = 0) := by omega
  rw [Tree.Construct, if_neg hc1, if_neg hc2]
  simp only [hroot]

theorem calcTreeHeight_ge_two {n : Nat} (h : 1 ≤ n) : 2 ≤ calcTreeHeight n := by
  rcases Nat.lt_or_ge n 2 with h2 | h2
  · have : n = 1 := by omega
    subst this
    simp [calcTreeHeight]
  · rw [calcTreeHeight, if_neg (by omega), if_neg (by omega)]
    have hc : 1 ≤ Log2 n := by
      rw [Log2_eq_clog (by omega)]
      have hpos : 0 < Nat.clog 2 n := Nat.clog_pos (by norm_num) h2
      omega
    omega

theorem specRootFrom_iter (H : HashFn) :
    ∀ ds : List Digest, ds ≠ [] →
      specRootFrom H ds = ((specParent H)^[Log2 ds.length] ds).headD []
  | [], hne => absurd rfl hne
  | [a], _ => by
    have hl2 : Log2 1 = 0 := by decide
    simp only [List.length_singleton, hl2, Function.iterate_zero, id_eq,
      List.headD_cons]
    simp [specRootFrom]
  | a :: b :: rest, _ => by
    have hlen2 : 2 ≤ (a :: b :: rest).length := by simp
    have hplen : (specParent H (a :: b :: rest)).length =
        ((a :: b :: rest).length + 1) / 2 := specParent_length H _
    have hpne : specParent H (a :: b :: rest) ≠ [] := by
      intro hnil
      have hh := congrArg List.length hnil
      rw [hplen] at hh
      simp at hh
      omega
    have hrec := specRootFrom_iter H (specParent H (a :: b :: rest)) hpne
    rw [specRootFrom, hrec]
    have hlog : Log2 (a :: b :: rest).length =
        Log2 ((specParent H (a :: b :: rest)).length) + 1 := by
      rw [hplen]
      exact Log2_halfCeil hlen2
    rw [hlog]
    rw [Function.iterate_succ_apply]
termination_by ds _ => ds.length
decreasing_by
  simp [specParent_length]
  omega

theorem construct_root_eq_spec (H : HashFn) {vals : List (List Nat)}
    (hne : vals ≠ []) :
    (Tree.Construct H (Tree.mk []) vals).2 = Except.ok (specRoot H vals) := by
  have h1 : 1 ≤ vals.length := List.length_pos.mpr hne
  rw [construct_ok H h1]
  have hfun : constructLevel H = specParent H :=
    funext (constructLevel_eq_specParent H)
  match vals with
  | [v] =>
    have hh : calcTreeHeight [v].length - 1 = 1 := by simp [calcTreeHeight]
    rw [hh, Function.iterate_one, hfun]
    simp only [List.map_cons, List.map_nil, specRoot, specParent,
      List.headD_cons]
  | v1 :: v2 :: vs =>
    have hlen2 : 2 ≤ (v1 :: v2 :: vs).length := by simp
    have hmapne : (v1 :: v2 :: vs).map H ≠ [] := by simp
    have hmaplen : ((v1 :: v2 :: vs).map H).length = (v1 :: v2 :: vs).length := by
      simp
    have hh : calcTreeHeight (v1 :: v2 :: vs).length - 1 =
        Log2 (v1 :: v2 :: vs).length := by
      rw [calcTreeHeight, if_neg (by omega), if_neg (by omega)]
      omega
    rw [hh, hfun]
    have hspec : specRoot H (v1 :: v2 :: vs) =
        specRootFrom H ((v1 :: v2 :: vs).map H) := by
      simp only [specRoot, List.map_cons]
    rw [hspec, specRootFrom_iter H _ hmapne, hmaplen]

theorem verifyStep_length_lt (H : HashFn)
    (hH : ∀ x : List Nat, x.length < (H x).length) (cur : Digest)
    (e : List Nat) : cur.length < (verifyStep H cur e).length := by
  match e with
  | [] => exact hH cur
  | tag :: rest =>
    rw [verifyStep]
    by_cases h0 : tag = 0
    · rw [if_pos h0]
      have h1 := hH (rest ++ cur)
      rw [List.length_append] at h1
      omega
    · rw [if_neg h0]
      by_cases h1 : tag = 1
      · rw [if_pos h1]
        have h2 := hH (cur ++ rest)
        rw [List.length_append] at h2
        omega
      · rw [if_neg h1]
        exact hH cur

theorem foldl_verifyStep_length_le (H : HashFn)
    (hH : ∀ x : List Nat, x.length < (H x).length) :
    ∀ (br : List (List Nat)) (cur : Digest),
      cur.length ≤ (br.foldl (verifyStep H) cur).length := by
  intro br
  induction br with
  | nil => intro cur; simp
  | cons e rest ih =>
    intro cur
    rw [List.foldl_cons]
    have h1 := verifyStep_length_lt H hH cur e
    have h2 := ih (verifyStep H cur e)
    omega

theorem foldl_verifyStep_length_lt (H : HashFn)
    (hH : ∀ x : List Nat, x.length < (H x).length) {br : List (List Nat)}
    (hbr : br ≠ []) (cur : Digest) :
    cur.length < (br.foldl (verifyStep H) cur).length := by
  match br with
  | e :: rest =>
    rw [List.foldl_cons]
    have h1 := verifyStep_length_lt H hH cur e
    have h2 := foldl_verifyStep_length_le H hH rest (verifyStep H cur e)
    omega

/-!
The claims.
-/

/-- C1: for every non-empty list of byte values, Construct on a fresh (empty)
tree succeeds and the returned root digest equals the reference Merkle root of
those values: leaf i holds hash(values[i]) in input order, a parent of two
children hashes left ++ right, a parent with only a left child hashes the left
digest alone. -/
theorem claim1_construct_root_matches_spec (H : HashFn) (vals : List (List Nat))
    (hne : vals ≠ []) :
    (Tree.Construct H (Tree.mk []) vals).2 = Except.ok (specRoot H vals) :=
  construct_root_eq_spec H hne

theorem claim1_witness :
    (Tree.Construct consHash (Tree.mk []) [[1], [2]]).2 =
      Except.ok (specRoot consHash [[1], [2]]) :=
  claim1_construct_root_matches_spec consHash [[1], [2]] (by decide)

/-- C2 counterexample: the sequence [[0]] is non-empty and has distinct values,
Construct succeeds on it, yet ComputeProof on its only value does not succeed:
the singleton leaf level makes the sibling lookup at index 0 xor 1 = 1 read out
of range (a runtime panic in Go), refuting the claim as stated. -/
theorem claim2_counterexample :
    ([[0]] : List (List Nat)) ≠ [] ∧ ([[0]] : List (List Nat)).Nodup ∧
    [0] ∈ ([[0]] : List (List Nat)) ∧
    (Tree.Construct consHash (Tree.mk []) [[0]]).2 = Except.ok [7, 7, 0] ∧
    (Tree.Construct consHash (Tree.mk []) [[0]]).1.ComputeProof consHash [0] =
      Except.error Err.panicOOB :=
  ⟨by decide, by decide, by decide, rfl, rfl⟩

/-- C2 (amended): for every sequence of distinct byte values whose length is a
power of two 2 ^ k with k at least 1, after Construct succeeds on a fresh tree,
for every value v of the sequence ComputeProof(v) succeeds and VerifyProof on
the resulting fresh Proof returns true. -/
theorem claim2_roundtrip_pow2 (H : HashFn) (vals : List (List Nat)) (k : Nat)
    (hk : 1 ≤ k) (hlen : vals.length = 2 ^ k) (_hnd : vals.Nodup)
    (v : List Nat) (hv : v ∈ vals) :
    ∃ (r : Digest) (p p' : Proof),
      (Tree.Construct H (Tree.mk []) vals).2 = Except.ok r ∧
      (Tree.Construct H (Tree.mk []) vals).1.ComputeProof H v = Except.ok p ∧
      (Tree.Construct H (Tree.mk []) vals).1.VerifyProof H p = some (true, p') := by
  have h1 : 1 ≤ vals.length := by
    rw [hlen]
    exact Nat.one_le_two_pow
  rw [construct_ok H h1]
  have hh : calcTreeHeight vals.length - 1 = k := by
    rw [hlen, calcTreeHeight_two_pow hk]
    omega
  rw [hh]
  have hL : (vals.map H).length = 2 ^ k := by rw [List.length_map, hlen]
  have hmem : H v ∈ vals.map H := List.mem_map_of_mem H hv
  obtain ⟨p, p', hcp, hvp⟩ := roundtrip_buildUp H hk hL hmem
  exact ⟨_, p, p', rfl, hcp, hvp⟩

theorem claim2_witness :
    ∃ (r : Digest) (p p' : Proof),
      (Tree.Construct consHash (Tree.mk []) [[1], [2]]).2 = Except.ok r ∧
      (Tree.Construct consHash (Tree.mk []) [[1], [2]]).1.ComputeProof
        consHash [1] = Except.ok p ∧
      (Tree.Construct consHash (Tree.mk []) [[1], [2]]).1.VerifyProof
        consHash p = some (true, p') :=
  claim2_roundtrip_pow2 consHash [[1], [2]] 1 (by decide) (by decide) (by decide)
    [1] (by decide)

/-- C3: the code evaluated at a failing input. On the tree built from two
values, ComputeProof of an absent value returns a Proof for the last leaf
position instead of the NotFound error: the Go range loop leaves the scan
index at len - 1 after an unsuccessful scan, so the index-equals-length check
that should produce NotFound can never fire on a non-empty leaf level. -/
theorem claim3_absent_value_not_notfound :
    (Tree.Construct consHash (Tree.mk []) [[1], [2]]).1.ComputeProof
        consHash [3] = Except.ok ⟨[[0, 7, 1]], [7, 3]⟩ ∧
    (Tree.Construct consHash (Tree.mk []) [[1], [2]]).1.ComputeProof
        consHash [3] ≠ Except.error Err.notFound := by
  refine ⟨rfl, ?_⟩
  intro hc
  have hok : (Tree.Construct consHash (Tree.mk []) [[1], [2]]).1.ComputeProof
      consHash [3] = Except.ok ⟨[[0, 7, 1]], [7, 3]⟩ := rfl
  exact Except.noConfusion (hok.symm.trans hc)

/-- C4: VerifyProof takes a Proof and returns a boolean with no error path on
a tree with a root: over a branch whose entries encode (direction, sibling)
pairs it folds, replacing the working digest by hash(sibling ++ digest) for
LEFT and hash(digest ++ sibling) for RIGHT, and returns the byte-exact
equality of the final digest with the root digest; the returned proof carries
the mutated working digest. -/
theorem claim4_verify_folds_and_compares (H : HashFn) (t : Tree) (p : Proof)
    (r : Digest) (entries : List (Direction × Digest))
    (hr : t.root? = some r) (hbr : p.br = entries.map encodeEntry) :
    t.VerifyProof H p =
      some (specVerify H r p.h entries,
        ⟨p.br, entries.foldl (specVerifyStep H) p.h⟩) := by
  have hstep : ∀ (cur : Digest) (e : Direction × Digest),
      verifyStep H cur (encodeEntry e) = specVerifyStep H cur e := by
    intro cur e
    obtain ⟨d, s⟩ := e
    cases d
    · rfl
    · rfl
  have hfold : p.br.foldl (verifyStep H) p.h =
      entries.foldl (specVerifyStep H) p.h := by
    rw [hbr, List.foldl_map]
    have hfeq : (fun x y => verifyStep H x (encodeEntry y)) =
        specVerifyStep H := by
      funext x y
      exact hstep x y
    rw [hfeq]
  simp only [Tree.VerifyProof, hr, hfold, specVerify]

theorem claim4_witness :
    (Tree.Construct consHash (Tree.mk []) [[1], [2]]).1.VerifyProof consHash
        ⟨[[1, 7, 2]], [7, 1]⟩ =
      some (specVerify consHash [7, 7, 1, 7, 2] [7, 1]
          [(Direction.RIGHT, [7, 2])],
        ⟨[[1, 7, 2]], [(Direction.RIGHT, [7, 2])].foldl
          (specVerifyStep consHash) [7, 1]⟩) :=
  claim4_verify_folds_and_compares consHash
    (Tree.Construct consHash (Tree.mk []) [[1], [2]]).1
    ⟨[[1, 7, 2]], [7, 1]⟩ [7, 7, 1, 7, 2] [(Direction.RIGHT, [7, 2])] rfl rfl

/-- C5: a tree constructed from a non-empty value list has Height 2 when the
count is 1 and ceil(log2(count)) + 1 otherwise (Nat.clog 2 is the ceiling
base-2 logarithm), and every empty tree has Height 0. -/
theorem claim5_height_formula (H : HashFn) (vals : List (List Nat))
    (hne : vals ≠ []) (t : Tree) (ht : t.Empty = true) :
    (Tree.Construct H (Tree.mk []) vals).1.Height =
      (if vals.length = 1 then 2 else Nat.clog 2 vals.length + 1) ∧
    t.Height = 0 := by
  constructor
  · have h1 : 1 ≤ vals.length := List.length_pos.mpr hne
    rw [construct_ok H h1]
    show (buildUp H (calcTreeHeight vals.length - 1) (vals.map H)).length = _
    rw [buildUp_length]
    have h2 := calcTreeHeight_ge_two h1
    by_cases hone : vals.length = 1
    · rw [if_pos hone, hone]
      simp [calcTreeHeight]
    · rw [if_neg hone]
      rw [calcTreeHeight, if_neg (by omega), if_neg hone]
      rw [Log2_eq_clog (by omega)]
      omega
  · rw [Tree.Empty] at ht
    simp only [beq_iff_eq] at ht
    exact ht

theorem claim5_witness :
    (Tree.Construct consHash (Tree.mk []) [[0], [1], [2], [3], [4]]).1.Height =
      (if ([[0], [1], [2], [3], [4]] : List (List Nat)).length = 1 then 2
       else Nat.clog 2 ([[0], [1], [2], [3], [4]] : List (List Nat)).length + 1) ∧
    (Tree.mk []).Height = 0 ∧
    (Tree.Construct consHash (Tree.mk []) [[0], [1], [2], [3], [4]]).1.Height = 4 :=
  ⟨(claim5_height_formula consHash [[0], [1], [2], [3], [4]] (by decide)
      (Tree.mk []) rfl).1,
   (claim5_height_formula consHash [[0], [1], [2], [3], [4]] (by decide)
      (Tree.mk []) rfl).2, rfl⟩

/-- C6: Construct on a non-empty tree fails with InvalidState whatever the
values are, and Construct with an empty value sequence on an empty tree fails
with EmptyInput; in both cases the error branch of the result carries no
digest and the tree is returned as it was. -/
theorem claim6_construct_error_cases (H : HashFn) (t : Tree)
    (vals : List (List Nat)) (h1 : t.Empty = false) (t2 : Tree)
    (h2 : t2.Empty = true) :
    Tree.Construct H t vals = (t, Except.error Err.invalidState) ∧
    Tree.Construct H t2 [] = (t2, Except.error Err.emptyInput) := by
  constructor
  · rw [Tree.Construct, if_pos (by rw [h1]; rfl)]
  · rw [Tree.Construct, if_neg (by rw [h2]; simp),
      if_pos (show ([] : List (List Nat)).length = 0 from rfl)]

theorem claim6_witness :
    Tree.Construct consHash (Tree.mk [[[5]]]) [[0]] =
      (Tree.mk [[[5]]], Except.error Err.invalidState) ∧
    Tree.Construct consHash (Tree.mk []) [] =
      (Tree.mk [], Except.error Err.emptyInput) :=
  claim6_construct_error_cases consHash (Tree.mk [[[5]]]) [[0]] rfl
    (Tree.mk []) rfl

/-- C7: the code evaluated at a failing input. On a tree of Height 2, the
level lookup returns the proper levels for heights 1 and 2 and the
HeightOutOfRange error for heights 0 and 4, but at height 3 = Height() + 1 the
off-by-one bounds check (strict greater-than against the level count) lets the
argument through and the slice index t.levels[2] is out of range: a runtime
panic, not the HeightOutOfRange error the claim requires for every height
outside the range 1..Height(). -/
theorem claim7_level_off_by_one :
    (Tree.Construct consHash (Tree.mk []) [[1], [2]]).1.Height = 2 ∧
    (Tree.Construct consHash (Tree.mk []) [[1], [2]]).1.level 3 =
      Except.error Err.panicOOB ∧
    (Tree.Construct consHash (Tree.mk []) [[1], [2]]).1.level 0 =
      Except.error Err.heightOutOfRange ∧
    (Tree.Construct consHash (Tree.mk []) [[1], [2]]).1.level 4 =
      Except.error Err.heightOutOfRange ∧
    (Tree.Construct consHash (Tree.mk []) [[1], [2]]).1.level 1 =
      Except.ok [[7, 7, 1, 7, 2]] ∧
    (Tree.Construct consHash (Tree.mk []) [[1], [2]]).1.level 2 =
      Except.ok [[7, 1], [7, 2]] :=
  ⟨rfl, rfl, rfl, rfl, rfl, rfl⟩

/-- C8: VerifyProof leaves the Proof with its working digest replaced by the
folded digest, so a Proof is single-use: when a first call on a fresh Proof
with a non-empty branch returns true, replaying VerifyProof on the returned
(already-finalized) Proof rehashes the final digest and returns false. The
hypothesis on H (every output strictly longer than its input) models the
collision-resistant digest engine the spec demands; it makes rehashing the
finalized digest provably leave the root's preimage set. -/
theorem claim8_proof_single_use (H : HashFn)
    (hH : ∀ x : List Nat, x.length < (H x).length) (t : Tree) (p : Proof)
    (b : Bool) (p1 : Proof) (h1 : t.VerifyProof H p = some (b, p1))
    (hb : b = true) (hbr : p.br ≠ []) :
    p1.br = p.br ∧ p1.h = p.br.foldl (verifyStep H) p.h ∧
    (t.VerifyProof H p1).map Prod.fst = some false := by
  subst hb
  cases hr : t.root? with
  | none =>
    rw [Tree.VerifyProof] at h1
    rw [hr] at h1
    exact Option.noConfusion h1
  | some r =>
    rw [Tree.VerifyProof] at h1
    rw [hr] at h1
    have h2 := Option.some.inj h1
    have hbeq : (r == p.br.foldl (verifyStep H) p.h) = true :=
      congrArg Prod.fst h2
    have hp1 : p1 = ⟨p.br, p.br.foldl (verifyStep H) p.h⟩ :=
      (congrArg Prod.snd h2).symm
    have hreq : r = p.br.foldl (verifyStep H) p.h := eq_of_beq hbeq
    subst hp1
    refine ⟨rfl, rfl, ?_⟩
    have hlt := foldl_verifyStep_length_lt H hH hbr r
    have hne2 : r ≠ p.br.foldl (verifyStep H) r := by
      intro hx
      rw [← hx] at hlt
      omega
    simp only [Tree.VerifyProof, hr, Option.map_some']
    have hfalse : (r == p.br.foldl (verifyStep H)
        (p.br.foldl (verifyStep H) p.h)) = false := by
      rw [beq_eq_false_iff_ne, ← hreq]
      exact hne2
    rw [hfalse]

theorem claim8_witness :
    (⟨[[1, 7, 2]], [7, 7, 1, 7, 2]⟩ : Proof).br =
      (⟨[[1, 7, 2]], [7, 1]⟩ : Proof).br ∧
    (⟨[[1, 7, 2]], [7, 7, 1, 7, 2]⟩ : Proof).h =
      (⟨[[1, 7, 2]], [7, 1]⟩ : Proof).br.foldl (verifyStep consHash)
        (⟨[[1, 7, 2]], [7, 1]⟩ : Proof).h ∧
    ((Tree.Construct consHash (Tree.mk []) [[1], [2]]).1.VerifyProof consHash
        ⟨[[1, 7, 2]], [7, 7, 1, 7, 2]⟩).map Prod.fst = some false :=
  claim8_proof_single_use consHash
    (fun x => by simp only [consHash, List.length_cons]; omega)
    (Tree.Construct consHash (Tree.mk []) [[1], [2]]).1
    ⟨[[1, 7, 2]], [7, 1]⟩ true ⟨[[1, 7, 2]], [7, 7, 1, 7, 2]⟩ rfl rfl
    (by decide)

/-- C9: on a tree constructed from 2 ^ k values (k at least 1) every level
below the root (level index 1 and larger) has even size, and for every value
of the sequence ComputeProof succeeds, so the out-of-range sibling access
(index i xor 1 outside the level) is unreachable; by contrast, on the tree
built from 3 values ComputeProof of the third value hits exactly that
out-of-range access. -/
theorem claim9_pow2_siblings_in_range (H : HashFn) (vals : List (List Nat))
    (k : Nat) (hk : 1 ≤ k) (hlen : vals.length = 2 ^ k) (idx : Nat)
    (hidx1 : 1 ≤ idx) (hidx2 : idx ≤ k) (v : List Nat) (hv : v ∈ vals) :
    (∃ lvl, (Tree.Construct H (Tree.mk []) vals).1.levels[idx]? = some lvl ∧
      lvl.length % 2 = 0) ∧
    (∃ p, (Tree.Construct H (Tree.mk []) vals).1.ComputeProof H v =
      Except.ok p) ∧
    (Tree.Construct consHash (Tree.mk []) [[0], [1], [2]]).1.ComputeProof
      consHash [2] = Except.error Err.panicOOB := by
  have h1 : 1 ≤ vals.length := by
    rw [hlen]
    exact Nat.one_le_two_pow
  rw [construct_ok H h1]
  have hh : calcTreeHeight vals.length - 1 = k := by
    rw [hlen, calcTreeHeight_two_pow hk]
    omega
  rw [hh]
  have hL : (vals.map H).length = 2 ^ k := by rw [List.length_map, hlen]
  refine ⟨?_, ?_, rfl⟩
  · obtain ⟨j, rfl⟩ : ∃ j, idx = j + 1 := ⟨idx - 1, by omega⟩
    have hget := buildUp_getElem H k (vals.map H) (j + 1) (by omega)
    refine ⟨(constructLevel H)^[k - (j + 1)] (vals.map H), hget, ?_⟩
    have hlenr : ((constructLevel H)^[k - (j + 1)] (vals.map H)).length =
        2 ^ (j + 1) := by
      apply iterCL_length
      rw [hL]
      congr 1
      omega
    rw [hlenr]
    have hpow : (2 : Nat) ^ (j + 1) = 2 ^ j * 2 := by ring
    omega
  · have hmem : H v ∈ vals.map H := List.mem_map_of_mem H hv
    exact ⟨_, computeProof_pow2 H hk hL hmem⟩

theorem claim9_witness :
    (∃ lvl, (Tree.Construct consHash (Tree.mk []) [[1], [2]]).1.levels[1]? =
      some lvl ∧ lvl.length % 2 = 0) ∧
    (∃ p, (Tree.Construct consHash (Tree.mk []) [[1], [2]]).1.ComputeProof
      consHash [1] = Except.ok p) ∧
    (Tree.Construct consHash (Tree.mk []) [[0], [1], [2]]).1.ComputeProof
      consHash [2] = Except.error Err.panicOOB :=
  claim9_pow2_siblings_in_range consHash [[1], [2]] 1 (by decide) (by decide)
    1 (by decide) (by decide) [1] (by decide)

/-- C10: when Construct fails because the tree is non-empty (InvalidState) or
because the value sequence is empty (EmptyInput), the returned tree is the
receiver unchanged, so Height, Empty and the whole level structure are
identical to their values before the call. -/
theorem claim10_error_leaves_tree_unchanged (H : HashFn) (t : Tree)
    (vals : List (List Nat))
    (herr : (Tree.Construct H t vals).2 = Except.error Err.invalidState ∨
      (Tree.Construct H t vals).2 = Except.error Err.emptyInput) :
    (Tree.Construct H t vals).1 = t ∧
    (Tree.Construct H t vals).1.Height = t.Height ∧
    (Tree.Construct H t vals).1.Empty = t.Empty ∧
    (Tree.Construct H t vals).1.levels = t.levels := by
  have hfst : (Tree.Construct H t vals).1 = t := by
    by_cases hc1 : (!t.Empty) = true
    · rw [Tree.Construct, if_pos hc1]
    · by_cases hc2 : vals.length = 0
      · rw [Tree.Construct, if_neg hc1, if_pos hc2]
      · exfalso
        rw [Tree.Construct, if_neg hc1, if_neg hc2] at herr
        rcases herr with h | h <;>
          rcases hroot : (Tree.mk (buildUp H (calcTreeHeight vals.length - 1)
              (vals.map H))).root? with _ | r <;>
          simp [hroot] at h
  exact ⟨hfst, by rw [hfst], by rw [hfst], by rw [hfst]⟩

theorem claim10_witness :
    (Tree.Construct consHash (Tree.mk [[[5]]]) [[0]]).1 = Tree.mk [[[5]]] ∧
    (Tree.Construct consHash (Tree.mk [[[5]]]) [[0]]).1.Height =
      (Tree.mk [[[5]]]).Height ∧
    (Tree.Construct consHash (Tree.mk [[[5]]]) [[0]]).1.Empty =
      (Tree.mk [[[5]]]).Empty ∧
    (Tree.Construct consHash (Tree.mk [[[5]]]) [[0]]).1.levels =
      (Tree.mk [[[5]]]).levels :=
  claim10_error_leaves_tree_unchanged consHash (Tree.mk [[[5]]]) [[0]]
    (Or.inl rfl)

/-!
Node-level soundness of the digest fusion: the digest levels of the embedding
are exactly what the lazy hashing fill computes on the node structure wired by
constructLevel.
-/

theorem hashing_leafNode (H : HashFn) (v : List Nat) :
    hashing H (leafNode H v) = some (H v) := by
  simp [hashing, leafNode]

theorem hashing_parentNode_step (H : HashFn) {ns : List GNode}
    {ds : List Digest} (hmap : ns.map (hashing H) = ds.map some) {i : Nat}
    (hi : i < (ns.length + ns.length % 2) / 2) :
    hashing H (parentNode ns i) = some (parentDigest H ds i) := by
  have hlen : ns.length = ds.length := by
    have h1 := congrArg List.length hmap
    simpa using h1
  have h2i : 2 * i < ns.length := by omega
  have hdi : 2 * i < ds.length := by omega
  obtain ⟨l, hleq⟩ : ∃ l, ns[2 * i]? = some l :=
    ⟨ns[2 * i], List.getElem?_eq_getElem h2i⟩
  have hhl : hashing H l = some (ds.getD (2 * i) []) := by
    have hmi := congrArg (fun xs => xs[2 * i]?) hmap
    simp only [List.getElem?_map] at hmi
    rw [hleq, List.getElem?_eq_getElem hdi] at hmi
    simp only [Option.map_some'] at hmi
    have hval := Option.some.inj hmi
    rw [hval, List.getD_eq_getElem ds [] hdi]
  by_cases hr : 2 * i + 1 < ns.length
  · have hdr : 2 * i + 1 < ds.length := by omega
    obtain ⟨rn, hreq⟩ : ∃ rn, ns[2 * i + 1]? = some rn :=
      ⟨ns[2 * i + 1], List.getElem?_eq_getElem hr⟩
    have hhr : hashing H rn = some ds[2 * i + 1] := by
      have hmi := congrArg (fun xs => xs[2 * i + 1]?) hmap
      simp only [List.getElem?_map] at hmi
      rw [hreq, List.getElem?_eq_getElem hdr] at hmi
      simp only [Option.map_some'] at hmi
      exact Option.some.inj hmi
    rw [parentNode, hleq, hreq]
    rw [parentDigest, List.getElem?_eq_getElem hdr]
    simp [hashing, hhl, hhr]
  · have hneq : ns[2 * i + 1]? = none := List.getElem?_eq_none (by omega)
    have hdneq : ds[2 * i + 1]? = none := List.getElem?_eq_none (by omega)
    rw [parentNode, hleq, hneq]
    rw [parentDigest, hdneq]
    simp [hashing, hhl]

theorem hashing_constructLevelN (H : HashFn) {ns : List GNode}
    {ds : List Digest} (hmap : ns.map (hashing H) = ds.map some) :
    (constructLevelN ns).map (hashing H) = (constructLevel H ds).map some := by
  have hlen : ns.length = ds.length := by
    have h1 := congrArg List.length hmap
    simpa using h1
  rw [constructLevelN, constructLevel, hlen]
  rw [List.map_map, List.map_map]
  apply List.map_congr_left
  intro i hmem
  have hi : i < (ds.length + ds.length % 2) / 2 := List.mem_range.mp hmem
  have hstep := hashing_parentNode_step H hmap (i := i) (by omega)
  exact hstep

theorem hashing_iterate (H : HashFn) (vals : List (List Nat)) :
    ∀ n : Nat,
      ((constructLevelN)^[n] (vals.map (leafNode H))).map (hashing H) =
        ((constructLevel H)^[n] (vals.map H)).map some := by
  intro n
  induction n with
  | zero =>
    simp only [Function.iterate_zero, id_eq]
    rw [List.map_map, List.map_map]
    apply List.map_congr_left
    intro v _
    exact hashing_leafNode H v
  | succ n ih =>
    rw [Function.iterate_succ_apply', Function.iterate_succ_apply']
    exact hashing_constructLevelN H ih

/-- The digest-level fusion is sound: the digest Construct returns is exactly
the digest that hashing (the lazy fill of main.go 63-95) computes at the root
node of the node-level structure built by constructLevel from the hashed
leaves. -/
theorem construct_digest_is_hashing_root (H : HashFn)
    (vals : List (List Nat)) (hne : vals ≠ []) :
    ∃ (root : GNode) (r : Digest),
      ((constructLevelN)^[calcTreeHeight vals.length - 1]
        (vals.map (leafNode H))).head? = some root ∧
      (Tree.Construct H (Tree.mk []) vals).2 = Except.ok r ∧
      hashing H root = some r := by
  have h1 : 1 ≤ vals.length := List.length_pos.mpr hne
  have hmapne : vals.map H ≠ [] := by
    intro hnil
    have h0 : (vals.map H).length = 0 := by rw [hnil]; rfl
    rw [List.length_map] at h0
    omega
  have hdne : (constructLevel H)^[calcTreeHeight vals.length - 1]
      (vals.map H) ≠ [] :=
    iterCL_ne_nil H (calcTreeHeight vals.length - 1) hmapne
  obtain ⟨d, dtail, hdeq⟩ := List.exists_cons_of_ne_nil hdne
  have hiter := hashing_iterate H vals (calcTreeHeight vals.length - 1)
  rw [hdeq] at hiter
  obtain ⟨nd, ntail, hneq⟩ : ∃ nd ntail,
      (constructLevelN)^[calcTreeHeight vals.length - 1]
        (vals.map (leafNode H)) = nd :: ntail := by
    cases hcase : (constructLevelN)^[calcTreeHeight vals.length - 1]
        (vals.map (leafNode H)) with
    | nil =>
      rw [hcase] at hiter
      exact absurd hiter.symm (by simp)
    | cons nd ntail => exact ⟨nd, ntail, rfl⟩
  rw [hneq] at hiter
  simp only [List.map_cons, List.cons.injEq] at hiter
  refine ⟨nd, d, by rw [hneq]; rfl, ?_, hiter.1⟩
  rw [construct_ok H h1, hdeq]
  rfl

end Merkle
